import Mathlib

/-!
# symmetric-buffer: a staged pipeline of worker threads joined by single-slot links

Embedding of src/src/pipeline.cpp and src/src/stage.cpp.

Modelling conventions.
* Every read or write of has_data and buffer in the sources happens with the mutex of
  that link held, and cv.wait(lk, pred) returns only with the mutex held and pred true.
  Each such critical section is therefore one atomic step, enabled exactly when its wait
  predicate holds; a step that is not enabled yields none (the thread stays in the wait).
  Every sequence of critical sections the threads can really perform is a schedule of
  this system, so what holds for all schedules holds for the program; a state in which no
  step is enabled is one in which no thread can ever leave its wait.
* running is a std::atomic<bool>; its load and store are single steps.
* std::mutex::try_lock may return false when another thread holds the mutex (and the
  C++ standard also lets it fail spuriously), so its outcome is an input of the step.
* The calls to log_worker and to the clock only produce diagnostics and are left out.
* An execution is a list of labels saying which thread moves next.
-/

namespace SymmetricBuffer

variable {α : Type}

/-- Modelled from the spec: the struct pipeline_link is declared in pipeline.h, which is
not among the sources. Its data fields are the two that pipeline.cpp and stage.cpp read
and write: has_data (the occupied flag of the spec) and buffer (the payload). The mutex
and the condition variable are represented by the atomicity of the guarded steps. -/
structure pipeline_link (α : Type) where
  has_data : Bool
  buffer : α

/-- The put critical section (stage.cpp lines 60-65 and 91-96): wait until has_data is
false, then store the data and set has_data. The value none stands for staying in the wait. -/
def link_put (l : pipeline_link α) (data : α) : Option (pipeline_link α) :=
  if l.has_data then none else some { has_data := true, buffer := data }

/-- The take critical section (stage.cpp lines 74-79, pipeline.cpp lines 29-34): wait
until has_data is true, then read the buffer and clear has_data. Moving a raw pointer out
of buffer leaves buffer as it was. -/
def link_take (l : pipeline_link α) : Option (α × pipeline_link α) :=
  if l.has_data then some (l.buffer, { l with has_data := false }) else none

/-- Modelled from the spec: the member pipeline_links is declared in pipeline.h, which is
not among the sources; the sources only index it. It is represented as a map from index
to link, and every index the sources use is taken to lie inside the array. -/
abbrev Links (α : Type) := Nat → pipeline_link α

/-- Assignment to pipeline_links[i]. -/
def setLink (ls : Links α) (i : Nat) (l : pipeline_link α) : Links α :=
  fun j => if j = i then l else ls j

/-- The two concrete stage classes. FirstStage owns a producer; the producer is a
function object with internal state, so it is given as the sequence of values its
successive calls return. Stage owns a transform and a reference to its upstream link. -/
inductive StageKind (α : Type) where
  | FirstStage (func : Nat → α)
  | Stage (func : α → α) (link_in : Nat)

/-- Control point of a worker thread inside run(), together with its local variable data. -/
inductive Loc (α : Type) where
  /-- at the loop test running.load() -/
  | check
  /-- FirstStage::run, loop test passed, about to evaluate func() -/
  | call
  /-- Stage::run, loop test passed, at the wait on link_in -/
  | take
  /-- Stage::run, data taken from link_in, about to evaluate func(data) -/
  | work (data : α)
  /-- at the wait on link_out with the result of func in data -/
  | put (data : α)
  /-- run() has returned, the thread can be joined -/
  | done

/-- A stage object with its thread: the members of GenericStage (link_out, stage_index,
running), the members of the derived class, and the control point of the thread th. -/
structure GenericStage (α : Type) where
  link_out : Nat
  stage_index : Nat
  running : Bool
  kind : StageKind α
  pc : Loc α

/-- FirstStage::FirstStage, stage.cpp lines 36-40. -/
def FirstStage.new (func : Nat → α) (link_out : Nat) : GenericStage α :=
  { link_out := link_out, stage_index := 0, running := true,
    kind := StageKind.FirstStage func, pc := Loc.check }

/-- Stage::Stage, stage.cpp lines 42-50. -/
def Stage.new (func : α → α) (link_in link_out stage_idx : Nat) : GenericStage α :=
  { link_out := link_out, stage_index := stage_idx, running := true,
    kind := StageKind.Stage func link_in, pc := Loc.check }

/-- The upstream link of a stage, absent for a FirstStage. -/
def GenericStage.link_in (st : GenericStage α) : Option Nat :=
  match st.kind with
  | StageKind.FirstStage _ => none
  | StageKind.Stage _ li => some li

/-- Control point of Pipeline::~Pipeline, which runs ~GenericStage on each stage in turn. -/
inductive Dtor where
  /-- the destructor has not been entered -/
  | idle
  /-- about to execute running.store(false) of stage i -/
  | store (i : Nat)
  /-- about to execute link_out.mtx.try_lock() of stage i -/
  | try_lock (i : Nat)
  /-- at th->join() of stage i -/
  | join (i : Nat)
  /-- every stage has been deleted -/
  | finished
deriving DecidableEq

/-- The Pipeline object with the threads it started. produced counts the completed calls
of the producer, returned lists the values get_future has handed out, oldest first. -/
structure Pipeline (α : Type) where
  pipeline_links : Links α
  stages : List (GenericStage α)
  produced : Nat
  returned : List α
  dtor : Dtor

/-- The loop of Pipeline::Pipeline, pipeline.cpp lines 14-18. -/
def ctorLoop : List (α → α) → Nat → List (GenericStage α) → List (GenericStage α)
  | [], _, stages => stages
  | fn :: rest, i, stages => ctorLoop rest (i + 1) (stages ++ [Stage.new fn i (i + 1) (i + 1)])

/-- Pipeline::Pipeline, pipeline.cpp lines 10-19. The value null is what the value
initialisation of pipeline_links leaves in each buffer. -/
def Pipeline.new (f : Nat → α) (f_list : List (α → α)) (null : α) : Pipeline α :=
  { pipeline_links := fun _ => { has_data := false, buffer := null },
    stages := ctorLoop f_list 0 [FirstStage.new f 0],
    produced := 0,
    returned := [],
    dtor := Dtor.idle }

/-- Replace stage i. -/
def Pipeline.setStage (p : Pipeline α) (i : Nat) (st : GenericStage α) : Pipeline α :=
  { p with stages := p.stages.set i st }

/-- One step of the thread of a FirstStage, stage.cpp lines 52-68. -/
def FirstStage_run (func : Nat → α) (p : Pipeline α) (i : Nat) (st : GenericStage α) :
    Option (Pipeline α) :=
  match st.pc with
  | Loc.check => some (p.setStage i { st with pc := if st.running then Loc.call else Loc.done })
  | Loc.call =>
      some ({ p with produced := p.produced + 1 }.setStage i
        { st with pc := Loc.put (func p.produced) })
  | Loc.put data =>
      match link_put (p.pipeline_links st.link_out) data with
      | none => none
      | some l =>
          some ({ p with pipeline_links := setLink p.pipeline_links st.link_out l }.setStage i
            { st with pc := Loc.check })
  | _ => none

/-- One step of the thread of a Stage, stage.cpp lines 70-99. -/
def Stage_run (func : α → α) (link_in : Nat) (p : Pipeline α) (i : Nat) (st : GenericStage α) :
    Option (Pipeline α) :=
  match st.pc with
  | Loc.check => some (p.setStage i { st with pc := if st.running then Loc.take else Loc.done })
  | Loc.take =>
      match link_take (p.pipeline_links link_in) with
      | none => none
      | some (data, l) =>
          some ({ p with pipeline_links := setLink p.pipeline_links link_in l }.setStage i
            { st with pc := Loc.work data })
  | Loc.work data => some (p.setStage i { st with pc := Loc.put (func data) })
  | Loc.put data =>
      match link_put (p.pipeline_links st.link_out) data with
      | none => none
      | some l =>
          some ({ p with pipeline_links := setLink p.pipeline_links st.link_out l }.setStage i
            { st with pc := Loc.check })
  | _ => none

/-- One step of the worker thread of stage i. -/
def workerStep (p : Pipeline α) (i : Nat) : Option (Pipeline α) :=
  match p.stages[i]? with
  | none => none
  | some st =>
      match st.kind with
      | StageKind.FirstStage func => FirstStage_run func p i st
      | StageKind.Stage func link_in => Stage_run func link_in p i st

/-- Pipeline::get_future, pipeline.cpp lines 26-40: the value handed out and the state
left behind, or none while the wait predicate is false. -/
def Pipeline.get_future (p : Pipeline α) : Option (α × Pipeline α) :=
  match link_take (p.pipeline_links (p.stages.length - 1)) with
  | none => none
  | some (data, l) =>
      some (data, { p with pipeline_links := setLink p.pipeline_links (p.stages.length - 1) l })

/-- A completed call of get_future by the consumer, recorded in returned. -/
def consumeStep (p : Pipeline α) : Option (Pipeline α) :=
  match p.get_future with
  | none => none
  | some (data, q) => some { q with returned := q.returned ++ [data] }

/-- The statement running.store(false) of the destructor of stage i, stage.cpp line 19. -/
def dtor_store (p : Pipeline α) (i : Nat) (st : GenericStage α) : Pipeline α :=
  { p with dtor := Dtor.try_lock i }.setStage i { st with running := false }

/-- The try_lock branch of the destructor of stage i, stage.cpp lines 20-30. -/
def dtor_try_lock (p : Pipeline α) (i : Nat) (st : GenericStage α) (acquired : Bool) :
    Pipeline α :=
  if acquired then
    { p with
      dtor := Dtor.join i,
      pipeline_links := setLink p.pipeline_links st.link_out
        { p.pipeline_links st.link_out with has_data := false } }
  else { p with dtor := Dtor.join i }

/-- Where the loop of Pipeline::~Pipeline goes after stage i - 1 is deleted. -/
def dtorNext (p : Pipeline α) (i : Nat) : Dtor :=
  if i < p.stages.length then Dtor.store i else Dtor.finished

/-- One step of the thread that runs Pipeline::~Pipeline (pipeline.cpp lines 21-24) and
through it GenericStage::~GenericStage (stage.cpp lines 18-33). The join returns only
when run() of the worker has returned. -/
def dtorStep (p : Pipeline α) (acquired : Bool) : Option (Pipeline α) :=
  match p.dtor with
  | Dtor.idle => some { p with dtor := dtorNext p 0 }
  | Dtor.store i =>
      match p.stages[i]? with
      | none => none
      | some st => some (dtor_store p i st)
  | Dtor.try_lock i =>
      match p.stages[i]? with
      | none => none
      | some st => some (dtor_try_lock p i st acquired)
  | Dtor.join i =>
      match p.stages[i]? with
      | none => none
      | some st =>
          match st.pc with
          | Loc.done => some { p with dtor := dtorNext p (i + 1) }
          | _ => none
  | Dtor.finished => none

/-- Which thread moves next. -/
inductive Label where
  /-- the worker thread of stage i -/
  | worker (i : Nat)
  /-- the consumer completes a get_future call -/
  | consume
  /-- the destructor thread; acquired is the outcome of try_lock where one is executed -/
  | teardown (acquired : Bool)
deriving DecidableEq

/-- One step of the whole system. -/
def step (p : Pipeline α) : Label → Option (Pipeline α)
  | Label.worker i => workerStep p i
  | Label.consume => consumeStep p
  | Label.teardown acquired => dtorStep p acquired

/-- Run a schedule; none when some step of it is not enabled. -/
def run (p : Pipeline α) : List Label → Option (Pipeline α)
  | [] => some p
  | l :: ls =>
      match step p l with
      | none => none
      | some q => run q ls

/-- The links the stages and get_future are bound to: every link_out, every link_in, and
the index stages.size()-1 that get_future reads. -/
def boundLinks (p : Pipeline α) : Finset Nat :=
  (p.stages.map (fun st => st.link_out) ++ p.stages.filterMap (fun st => st.link_in)
    ++ [p.stages.length - 1]).toFinset

/-- The position of a stage in the chain fixes its links: stage n writes link n and,
unless it is stage 0, reads link n - 1. -/
def GenericStage.wiredAt (st : GenericStage α) (n : Nat) : Prop :=
  st.link_out = n ∧ st.link_in = (match n with | 0 => none | m + 1 => some m)

/-- The stages of a list are wired as positions n, n + 1, ... of the chain. -/
def Wired : Nat → List (GenericStage α) → Prop
  | _, [] => True
  | n, st :: rest => st.wiredAt n ∧ Wired (n + 1) rest

/-- The pipeline of the transform test of the spec: the producer emits 0, 1, 2, ...,
the first transform doubles and the second adds one. -/
def demo : Pipeline Nat :=
  Pipeline.new (fun n => n) [fun x => 2 * x, fun x => x + 1] 0

/-- Relational reading of workerStep: the successors of p under one step of worker i. -/
inductive WorkerStep (p : Pipeline α) (i : Nat) : Pipeline α → Prop
  | check_first (st : GenericStage α) (func : Nat → α) :
      p.stages[i]? = some st → st.kind = StageKind.FirstStage func → st.pc = Loc.check →
      WorkerStep p i (p.setStage i { st with pc := if st.running then Loc.call else Loc.done })
  | check_relay (st : GenericStage α) (func : α → α) (li : Nat) :
      p.stages[i]? = some st → st.kind = StageKind.Stage func li → st.pc = Loc.check →
      WorkerStep p i (p.setStage i { st with pc := if st.running then Loc.take else Loc.done })
  | call (st : GenericStage α) (func : Nat → α) :
      p.stages[i]? = some st → st.kind = StageKind.FirstStage func → st.pc = Loc.call →
      WorkerStep p i ({ p with produced := p.produced + 1 }.setStage i
        { st with pc := Loc.put (func p.produced) })
  | take (st : GenericStage α) (func : α → α) (li : Nat) :
      p.stages[i]? = some st → st.kind = StageKind.Stage func li → st.pc = Loc.take →
      (p.pipeline_links li).has_data = true →
      WorkerStep p i ({ p with pipeline_links := (setLink p.pipeline_links li
          { has_data := false, buffer := (p.pipeline_links li).buffer }) }.setStage i
        { st with pc := Loc.work (p.pipeline_links li).buffer })
  | work (st : GenericStage α) (func : α → α) (li : Nat) (d : α) :
      p.stages[i]? = some st → st.kind = StageKind.Stage func li → st.pc = Loc.work d →
      WorkerStep p i (p.setStage i { st with pc := Loc.put (func d) })
  | put (st : GenericStage α) (d : α) :
      p.stages[i]? = some st → st.pc = Loc.put d →
      (p.pipeline_links st.link_out).has_data = false →
      WorkerStep p i ({ p with pipeline_links := (setLink p.pipeline_links st.link_out
          { has_data := true, buffer := d }) }.setStage i { st with pc := Loc.check })

/-- The transform a stage applies to an item that passes through it; a FirstStage only
emits items, so nothing is applied there. -/
def GenericStage.xf (st : GenericStage α) : α → α :=
  match st.kind with
  | StageKind.FirstStage _ => id
  | StageKind.Stage func _ => func

/-- The transforms of the listed stages applied in chain order. -/
def downstream : List (GenericStage α) → α → α
  | [], x => x
  | st :: rest, x => downstream rest (st.xf x)

/-- The item a stage thread holds between obtaining it and putting it, as it will be put:
data after func has run, func(data) before. -/
def GenericStage.held (st : GenericStage α) : List α :=
  match st.pc with
  | Loc.work d => [st.xf d]
  | Loc.put d => [d]
  | _ => []

/-- The payload of the downstream link of a stage, when that link is occupied. -/
def slot (links : Links α) (st : GenericStage α) : List α :=
  if (links st.link_out).has_data then [(links st.link_out).buffer] else []

/-- The items in flight, oldest first, each mapped through the transforms it has still to
pass: stages further down the chain come first, and for each stage the payload of its
downstream link comes before the item its thread holds. -/
def pending (links : Links α) : List (GenericStage α) → List α
  | [] => []
  | st :: rest => pending links rest ++ (slot links st ++ st.held).map (downstream rest)

/-- Accounting of the produced items: what get_future has returned followed by what is in
flight is the sequence of produced items mapped through all transforms. -/
def Accounted (f : Nat → α) (p : Pipeline α) : Prop :=
  p.returned ++ pending p.pipeline_links p.stages =
    (List.range p.produced).map (fun n => downstream p.stages (f n))

/-- Every FirstStage of the list runs the producer f. -/
def ProducerIs (f : Nat → α) (l : List (GenericStage α)) : Prop :=
  ∀ st ∈ l, ∀ g, st.kind = StageKind.FirstStage g → g = f

/-- The structure fixed by construction: the wiring, at least one stage, the producer. -/
def Static (f : Nat → α) (p : Pipeline α) : Prop :=
  Wired 0 p.stages ∧ p.stages ≠ [] ∧ ProducerIs f p.stages

/-- Labels of the destructor thread. -/
def Label.isTeardown : Label → Bool
  | Label.teardown _ => true
  | _ => false

/-- A schedule in which the destructor is never entered. -/
def NoTeardown (ls : List Label) : Prop :=
  ∀ l ∈ ls, l.isTeardown = false

instance (ls : List Label) : Decidable (NoTeardown ls) :=
  inferInstanceAs (Decidable (∀ l ∈ ls, l.isTeardown = false))

/-- One round of the demo pipeline: every worker runs one full iteration of its loop, in
chain order, and the consumer then takes the result. -/
def demoRound : List Label :=
  [Label.worker 0, Label.worker 0, Label.worker 0,
   Label.worker 1, Label.worker 1, Label.worker 1, Label.worker 1,
   Label.worker 2, Label.worker 2, Label.worker 2, Label.worker 2,
   Label.consume]

/-- Ten rounds of the demo pipeline. -/
def demoSchedule : List Label :=
  (List.replicate 10 demoRound).flatten

/-- The producer of the demo pipeline fills link 0 and comes back with the next item while
nobody takes anything. -/
def stalledSchedule : List Label :=
  [Label.worker 0, Label.worker 0, Label.worker 0, Label.worker 0, Label.worker 0]

/-- The composition of the transforms of the constructor argument, first to last. -/
def composed (f_list : List (α → α)) (x : α) : α :=
  f_list.foldl (fun a g => g a) x

/-- Relational reading of dtorStep. -/
inductive DtorStep (p : Pipeline α) (acquired : Bool) : Pipeline α → Prop
  | enter : p.dtor = Dtor.idle → DtorStep p acquired { p with dtor := dtorNext p 0 }
  | store (i : Nat) (st : GenericStage α) :
      p.dtor = Dtor.store i → p.stages[i]? = some st → DtorStep p acquired (dtor_store p i st)
  | try_lock (i : Nat) (st : GenericStage α) :
      p.dtor = Dtor.try_lock i → p.stages[i]? = some st →
      DtorStep p acquired (dtor_try_lock p i st acquired)
  | join (i : Nat) (st : GenericStage α) :
      p.dtor = Dtor.join i → p.stages[i]? = some st → st.pc = Loc.done →
      DtorStep p acquired { p with dtor := dtorNext p (i + 1) }

/-- Once the destructor has reached try_lock or join of stage i, the running flag of
stage i is false. -/
def Stopping (p : Pipeline α) : Prop :=
  ∀ i, p.dtor = Dtor.try_lock i ∨ p.dtor = Dtor.join i →
    ∃ st, p.stages[i]? = some st ∧ st.running = false

/-- Number of steps of a schedule, run from p, at which the event ev occurs; counting
stops at the first step that is not enabled. -/
def countEvents (ev : Pipeline α → Label → Bool) : Pipeline α → List Label → Nat
  | _, [] => 0
  | p, l :: ls =>
      match step p l with
      | none => 0
      | some q => (if ev p l then 1 else 0) + countEvents ev q ls

/-- A test on stage i of the pipeline. -/
def stageAt (p : Pipeline α) (i : Nat) (test : GenericStage α → Bool) : Bool :=
  match p.stages[i]? with
  | some st => test st
  | none => false

/-- The thread is about to evaluate its user function. -/
def Loc.atFunc : Loc α → Bool
  | Loc.call => true
  | Loc.work _ => true
  | _ => false

/-- The thread is at the put on its downstream link. -/
def Loc.atPut : Loc α → Bool
  | Loc.put _ => true
  | _ => false

/-- The thread is at the loop test. -/
def Loc.atCheck : Loc α → Bool
  | Loc.check => true
  | _ => false

/-- The step is worker i evaluating its user function. -/
def callsFunc (i : Nat) (p : Pipeline α) (l : Label) : Bool :=
  decide (l = Label.worker i) && stageAt p i (fun st => st.pc.atFunc)

/-- The step is worker i completing the put on its downstream link. -/
def completesPut (i : Nat) (p : Pipeline α) (l : Label) : Bool :=
  decide (l = Label.worker i) && stageAt p i (fun st => st.pc.atPut)

/-- The step is worker i passing the loop test, that is, beginning an iteration. -/
def beginsIteration (i : Nat) (p : Pipeline α) (l : Label) : Bool :=
  decide (l = Label.worker i) && stageAt p i (fun st => st.running && st.pc.atCheck)

/-- User function calls a stopped worker can still make from its control point. -/
def callsLeft (st : GenericStage α) : Nat :=
  match st.pc with
  | Loc.call => 1
  | Loc.take => 1
  | Loc.work _ => 1
  | _ => 0

/-- Puts a stopped worker can still complete from its control point. -/
def putsLeft (st : GenericStage α) : Nat :=
  match st.pc with
  | Loc.call => 1
  | Loc.take => 1
  | Loc.work _ => 1
  | Loc.put _ => 1
  | _ => 0

/-- The demo pipeline after its producer thread has passed the loop test and the
destructor has then cleared the running flag of stage 0. -/
def stoppedSchedule : List Label :=
  [Label.worker 0, Label.teardown true, Label.teardown true]

/-- The schedule the stopped producer goes on with. -/
def afterStopSchedule : List Label :=
  [Label.worker 0, Label.worker 0, Label.worker 0, Label.worker 0]

/-- The state the demo pipeline reaches by stoppedSchedule. -/
def stoppedDemo : Pipeline Nat :=
  (run demo stoppedSchedule).getD demo

/-- Stage 0 of stoppedDemo: past the loop test, running flag cleared. -/
def stoppedStage : GenericStage Nat :=
  { FirstStage.new (fun n => n) 0 with running := false, pc := Loc.call }

/-- The step is the destructor acquiring the lock of link j and clearing has_data while
the link is occupied: the payload is lost without having been taken. -/
def clearsOccupied (j : Nat) (p : Pipeline α) (l : Label) : Bool :=
  match l, p.dtor with
  | Label.teardown true, Dtor.try_lock i =>
      stageAt p i (fun st => decide (st.link_out = j) && (p.pipeline_links j).has_data)
  | _, _ => false

/-- The step is a worker completing a put on link j while the link is occupied: the
payload that was there is overwritten without having been taken. -/
def overwritesOccupied (j : Nat) (p : Pipeline α) (l : Label) : Bool :=
  match l with
  | Label.worker i =>
      stageAt p i (fun st =>
        st.pc.atPut && decide (st.link_out = j) && (p.pipeline_links j).has_data)
  | _ => false

/-- The step discards the payload of link j: the link is occupied, and the step is not a
take by the downstream stage or by get_future but either the clear of has_data by the
destructor or a put that overwrites the payload. Each such step loses one item. -/
def discards (j : Nat) (p : Pipeline α) (l : Label) : Bool :=
  clearsOccupied j p l || overwritesOccupied j p l

/-- The destructor is past the try_lock of stage j. -/
def Dtor.passed (j : Nat) : Dtor → Bool
  | Dtor.idle => false
  | Dtor.store i => decide (j < i)
  | Dtor.try_lock i => decide (j < i)
  | Dtor.join i => decide (j ≤ i)
  | Dtor.finished => true

/-- A pipeline of one producer and one transform. -/
def tiny : Pipeline Nat :=
  Pipeline.new (fun n => n) [fun x => 2 * x] 0

/-- Destruction right after construction: the destructor clears the flag of stage 0 before
the producer thread has made its first loop test, the producer thread returns at once, the
thread of stage 1 passes its loop test and waits on link 0, then the destructor joins
stage 0, clears the flag of stage 1, takes the lock of link 1 and joins stage 1. -/
def deadlockSchedule : List Label :=
  [Label.teardown true, Label.teardown true, Label.teardown true,
   Label.worker 0, Label.worker 1,
   Label.teardown true, Label.teardown true, Label.teardown true]

/-- A schedule of the demo pipeline in which the destructor discards the payload of
link 0. -/
def discardSchedule : List Label :=
  [Label.worker 0, Label.worker 0, Label.worker 0,
   Label.teardown true, Label.teardown true, Label.teardown true,
   Label.worker 0, Label.teardown true]

/-- The producer of the demo pipeline passes its loop test and evaluates the producer. -/
def putSchedule : List Label :=
  [Label.worker 0, Label.worker 0]

/-- The state the demo pipeline reaches by putSchedule: stage 0 is at its put. -/
def putDemo : Pipeline Nat :=
  (run demo putSchedule).getD demo

/-- Stage 0 of putDemo. -/
def putStage : GenericStage Nat :=
  { FirstStage.new (fun n => n) 0 with pc := Loc.put 0 }

/-- The producer of the demo pipeline fills link 0, then the destructor is entered and
clears the running flag of stage 0. -/
def unblockSchedule : List Label :=
  [Label.worker 0, Label.worker 0, Label.worker 0, Label.teardown true, Label.teardown true]

/-- The state the demo pipeline reaches by unblockSchedule: the destructor is at the
try_lock of stage 0 and link 0 is occupied. -/
def unblockDemo : Pipeline Nat :=
  (run demo unblockSchedule).getD demo

/-- Stage 0 of unblockDemo. -/
def unblockStage : GenericStage Nat :=
  { FirstStage.new (fun n => n) 0 with running := false }

/-! ## Construction and wiring -/

theorem ctorLoop_length (fs : List (α → α)) (i : Nat) (acc : List (GenericStage α)) :
    (ctorLoop fs i acc).length = acc.length + fs.length := by
  induction fs generalizing i acc with
  | nil => simp [ctorLoop]
  | cons fn rest ih => simp [ctorLoop, ih]; omega

theorem wired_append (n : Nat) (l₁ l₂ : List (GenericStage α)) :
    Wired n (l₁ ++ l₂) ↔ Wired n l₁ ∧ Wired (n + l₁.length) l₂ := by
  induction l₁ generalizing n with
  | nil => simp [Wired]
  | cons st rest ih =>
      show (st.wiredAt n ∧ Wired (n + 1) (rest ++ l₂)) ↔
        (st.wiredAt n ∧ Wired (n + 1) rest) ∧ Wired (n + (rest.length + 1)) l₂
      rw [ih, show n + 1 + rest.length = n + (rest.length + 1) by omega]
      tauto

theorem ctorLoop_wired (fs : List (α → α)) (i : Nat) (acc : List (GenericStage α))
    (h : Wired 0 acc) (hlen : acc.length = i + 1) : Wired 0 (ctorLoop fs i acc) := by
  induction fs generalizing i acc with
  | nil => simpa [ctorLoop] using h
  | cons fn rest ih =>
      simp only [ctorLoop]
      apply ih
      · rw [wired_append]
        refine ⟨h, ?_⟩
        rw [Nat.zero_add, hlen]
        simp [Wired, GenericStage.wiredAt, Stage.new, GenericStage.link_in]
      · simp [hlen]

theorem new_wired (f : Nat → α) (f_list : List (α → α)) (null : α) :
    Wired 0 (Pipeline.new f f_list null).stages := by
  have := ctorLoop_wired f_list 0 [FirstStage.new f 0]
    (by simp [Wired, GenericStage.wiredAt, FirstStage.new, GenericStage.link_in]) (by simp)
  simpa [Pipeline.new] using this

theorem new_length (f : Nat → α) (f_list : List (α → α)) (null : α) :
    (Pipeline.new f f_list null).stages.length = f_list.length + 1 := by
  simp [Pipeline.new, ctorLoop_length]; omega

theorem wired_getElem {n : Nat} {l : List (GenericStage α)} (h : Wired n l)
    {j : Nat} {st : GenericStage α} (hj : l[j]? = some st) : st.wiredAt (n + j) := by
  induction l generalizing n j with
  | nil => simp at hj
  | cons a rest ih =>
      cases j with
      | zero =>
          simp at hj
          subst hj
          exact h.1
      | succ j =>
          simp at hj
          have := ih h.2 hj
          rwa [show n + 1 + j = n + (j + 1) by omega] at this

theorem wired_link_out {p : Pipeline α} (h : Wired 0 p.stages) {j : Nat} {st : GenericStage α}
    (hj : p.stages[j]? = some st) : st.link_out = j := by
  have := (wired_getElem h hj).1
  simpa using this

theorem wired_link_in_succ {p : Pipeline α} (h : Wired 0 p.stages) {j : Nat}
    {st : GenericStage α} (hj : p.stages[j + 1]? = some st) : st.link_in = some j := by
  have := (wired_getElem h hj).2
  simpa using this

theorem wired_link_in_zero {p : Pipeline α} (h : Wired 0 p.stages) {st : GenericStage α}
    (hj : p.stages[0]? = some st) : st.link_in = none := by
  have := (wired_getElem h hj).2
  simpa using this

theorem boundLinks_of_wired (p : Pipeline α) (h : Wired 0 p.stages) (hne : p.stages ≠ []) :
    boundLinks p = Finset.range p.stages.length := by
  have hpos : 0 < p.stages.length := List.length_pos.mpr hne
  ext x
  simp only [boundLinks, List.mem_toFinset, List.mem_append, List.mem_map, List.mem_filterMap,
    List.mem_singleton, Finset.mem_range]
  constructor
  · rintro ((⟨st, hst, rfl⟩ | ⟨st, hst, hin⟩) | rfl)
    · obtain ⟨j, hj, rfl⟩ := List.mem_iff_getElem.mp hst
      have := wired_link_out h (List.getElem?_eq_getElem hj)
      omega
    · obtain ⟨j, hj, rfl⟩ := List.mem_iff_getElem.mp hst
      cases j with
      | zero =>
          have := wired_link_in_zero h (List.getElem?_eq_getElem hj)
          rw [this] at hin
          cases hin
      | succ j =>
          have := wired_link_in_succ h (List.getElem?_eq_getElem hj)
          rw [this] at hin
          cases hin
          omega
    · omega
  · intro hx
    refine Or.inl (Or.inl ⟨p.stages[x], List.getElem_mem _, ?_⟩)
    exact wired_link_out h (List.getElem?_eq_getElem hx)

/-- C2. Topology wiring after Pipeline construction, for every producer and every list of
transforms: there is one stage per function; the first stage has no upstream link and its
downstream link is link 0; for every adjacent pair of stages the downstream link of stage
j is the upstream link of stage j + 1; the link get_future reads (index stages.size()-1)
is the downstream link of the last stage. -/
theorem C2_topology_wiring (f : Nat → α) (f_list : List (α → α)) (null : α) :
    (Pipeline.new f f_list null).stages.length = f_list.length + 1 ∧
    (∃ st, (Pipeline.new f f_list null).stages[0]? = some st ∧
      st.link_in = none ∧ st.link_out = 0) ∧
    (∀ j a b, (Pipeline.new f f_list null).stages[j]? = some a →
      (Pipeline.new f f_list null).stages[j + 1]? = some b → b.link_in = some a.link_out) ∧
    (∃ st, (Pipeline.new f f_list null).stages.getLast? = some st ∧
      st.link_out = (Pipeline.new f f_list null).stages.length - 1) := by
  have hw := new_wired f f_list null
  have hl := new_length f f_list null
  refine ⟨hl, ?_, ?_, ?_⟩
  · have h0 : 0 < (Pipeline.new f f_list null).stages.length := by omega
    refine ⟨_, List.getElem?_eq_getElem h0, ?_, ?_⟩
    · exact wired_link_in_zero hw (List.getElem?_eq_getElem h0)
    · exact wired_link_out hw (List.getElem?_eq_getElem h0)
  · intro j a b ha hb
    rw [wired_link_in_succ hw hb, wired_link_out hw ha]
  · have hk : (Pipeline.new f f_list null).stages.length - 1 <
        (Pipeline.new f f_list null).stages.length := by omega
    refine ⟨(Pipeline.new f f_list null).stages[(Pipeline.new f f_list null).stages.length - 1],
      ?_, ?_⟩
    · rw [List.getLast?_eq_getElem?, List.getElem?_eq_getElem hk]
    · exact wired_link_out hw (List.getElem?_eq_getElem hk)

/-- C3, as stated, fails: the pipeline built from one producer and two transforms is bound
to three distinct links (indices 0, 1 and 2), not to two. -/
theorem C3_counterexample :
    (boundLinks demo).card = 3 ∧
    (boundLinks demo).card ≠ [fun x : Nat => 2 * x, fun x : Nat => x + 1].length := by
  decide

/-- C3, amended. For a pipeline constructed from one producer and k transforms, the set of
distinct links that the stages and get_future are bound to is the set of indices 0..k; it
has exactly k + 1 elements, as many links as there are stages. -/
theorem C3_link_count (f : Nat → α) (f_list : List (α → α)) (null : α) :
    boundLinks (Pipeline.new f f_list null) = Finset.range (f_list.length + 1) ∧
    (boundLinks (Pipeline.new f f_list null)).card = f_list.length + 1 ∧
    (boundLinks (Pipeline.new f f_list null)).card =
      (Pipeline.new f f_list null).stages.length := by
  have hl := new_length f f_list null
  have hne : (Pipeline.new f f_list null).stages ≠ [] := by
    intro h
    rw [h] at hl
    simp at hl
  have hb := boundLinks_of_wired _ (new_wired f f_list null) hne
  rw [hl] at hb
  refine ⟨hb, ?_, ?_⟩
  · rw [hb, Finset.card_range]
  · rw [hb, Finset.card_range, hl]

/-! ## The steps, case by case -/

theorem workerStep_sound {p q : Pipeline α} {i : Nat} (h : workerStep p i = some q) :
    WorkerStep p i q := by
  unfold workerStep at h
  cases hst : p.stages[i]? with
  | none => simp [hst] at h
  | some st =>
    simp only [hst] at h
    obtain ⟨lo, si, r, k, pc⟩ := st
    cases k with
    | FirstStage func =>
      simp only [FirstStage_run] at h
      cases pc with
      | check => simp only [Option.some.injEq] at h; subst h; exact .check_first _ func hst rfl rfl
      | call => simp only [Option.some.injEq] at h; subst h; exact .call _ func hst rfl rfl
      | take => simp at h
      | work d => simp at h
      | put d =>
        simp only [link_put] at h
        cases hd : (p.pipeline_links lo).has_data with
        | true => simp [hd] at h
        | false =>
          simp only [hd, Bool.false_eq_true, if_false, Option.some.injEq] at h
          subst h
          exact WorkerStep.put _ d hst rfl hd
      | done => simp at h
    | Stage func li =>
      simp only [Stage_run] at h
      cases pc with
      | check => simp only [Option.some.injEq] at h; subst h; exact .check_relay _ func li hst rfl rfl
      | call => simp at h
      | take =>
        simp only [link_take] at h
        cases hd : (p.pipeline_links li).has_data with
        | false => simp [hd] at h
        | true =>
          simp only [hd, if_true, Option.some.injEq] at h
          subst h
          exact WorkerStep.take _ func li hst rfl rfl hd
      | work d =>
        simp only [Option.some.injEq] at h; subst h
        exact WorkerStep.work _ func li d hst rfl rfl
      | put d =>
        simp only [link_put] at h
        cases hd : (p.pipeline_links lo).has_data with
        | true => simp [hd] at h
        | false =>
          simp only [hd, Bool.false_eq_true, if_false, Option.some.injEq] at h
          subst h
          exact WorkerStep.put _ d hst rfl hd
      | done => simp at h

/-! ## Lists of stages -/

theorem getElem?_split {β : Type} {l : List β} {i : Nat} {x : β} (h : l[i]? = some x) :
    ∃ pre post, l = pre ++ x :: post ∧ pre.length = i ∧
      ∀ y, l.set i y = pre ++ y :: post := by
  induction l generalizing i with
  | nil => simp at h
  | cons a rest ih =>
      cases i with
      | zero =>
          simp at h
          subst h
          exact ⟨[], rest, rfl, rfl, fun y => rfl⟩
      | succ i =>
          simp at h
          obtain ⟨pre, post, h1, h2, h3⟩ := ih h
          refine ⟨a :: pre, post, ?_, ?_, ?_⟩
          · simp [h1]
          · simp [h2]
          · intro y
            simp [h3 y]

theorem wired_bounds {n : Nat} {l : List (GenericStage α)} (h : Wired n l) :
    ∀ st ∈ l, n ≤ st.link_out ∧ st.link_out < n + l.length := by
  induction l generalizing n with
  | nil => simp
  | cons a rest ih =>
      intro st hst
      rcases List.mem_cons.mp hst with rfl | hst
      · have := h.1.1
        simp only [List.length_cons]
        omega
      · have := ih h.2 st hst
        simp only [List.length_cons]
        omega

theorem downstream_append (a b : List (GenericStage α)) (x : α) :
    downstream (a ++ b) x = downstream b (downstream a x) := by
  induction a generalizing x with
  | nil => rfl
  | cons st rest ih => simp [downstream, ih]

theorem pending_append (links : Links α) (a b : List (GenericStage α)) :
    pending links (a ++ b) = pending links b ++ (pending links a).map (downstream b) := by
  induction a with
  | nil => simp [pending]
  | cons st rest ih =>
      show pending links (rest ++ b) ++ (slot links st ++ st.held).map (downstream (rest ++ b)) =
        pending links b ++
          (pending links rest ++ (slot links st ++ st.held).map (downstream rest)).map
            (downstream b)
      have hd : downstream (rest ++ b) = downstream b ∘ downstream rest := by
        funext x
        simp [downstream_append]
      rw [ih, hd]
      simp only [List.map_append, List.map_map, List.append_assoc]

theorem pending_split (links : Links α) (pre post : List (GenericStage α))
    (st : GenericStage α) :
    pending links (pre ++ st :: post) =
      pending links post ++ ((slot links st ++ st.held).map (downstream post) ++
        (pending links pre).map (fun x => downstream post (st.xf x))) := by
  rw [pending_append]
  simp only [pending, List.append_assoc]
  rfl

theorem slot_setLink_of_ne (links : Links α) (j : Nat) (l : pipeline_link α)
    (st : GenericStage α) (h : st.link_out ≠ j) : slot (setLink links j l) st = slot links st := by
  simp [slot, setLink, h]

theorem pending_setLink_of_ne (links : Links α) (j : Nat) (l : pipeline_link α)
    (ss : List (GenericStage α)) (h : ∀ st ∈ ss, st.link_out ≠ j) :
    pending (setLink links j l) ss = pending links ss := by
  induction ss with
  | nil => rfl
  | cons st rest ih =>
      simp only [pending]
      rw [ih (fun s hs => h s (List.mem_cons_of_mem _ hs)),
        slot_setLink_of_ne _ _ _ _ (h st (List.mem_cons_self _ _))]

theorem downstream_congr (pre post : List (GenericStage α)) (st st' : GenericStage α)
    (hk : st'.kind = st.kind) :
    downstream (pre ++ st' :: post) = downstream (pre ++ st :: post) := by
  funext x
  simp [downstream_append, downstream, GenericStage.xf, hk]

theorem wired_set {n : Nat} {l : List (GenericStage α)} {i : Nat} {st st' : GenericStage α}
    (h : Wired n l) (hi : l[i]? = some st) (hlo : st'.link_out = st.link_out)
    (hk : st'.kind = st.kind) : Wired n (l.set i st') := by
  obtain ⟨pre, post, rfl, _, hset⟩ := getElem?_split hi
  rw [hset]
  rw [wired_append] at h ⊢
  refine ⟨h.1, ?_, h.2.2⟩
  have := h.2.1
  simpa [GenericStage.wiredAt, GenericStage.link_in, hlo, hk] using this

theorem producerIs_set {f : Nat → α} {l : List (GenericStage α)} {i : Nat}
    {st st' : GenericStage α} (h : ProducerIs f l) (hi : l[i]? = some st)
    (hk : st'.kind = st.kind) : ProducerIs f (l.set i st') := by
  obtain ⟨pre, post, rfl, _, hset⟩ := getElem?_split hi
  rw [hset]
  intro s hs g hg
  simp only [List.mem_append, List.mem_cons] at hs
  rcases hs with hs | rfl | hs
  · exact h s (by simp [hs]) g hg
  · exact h st (by simp) g (by rw [← hk]; exact hg)
  · exact h s (by simp [hs]) g hg

theorem workerStep_stages {p q : Pipeline α} {i : Nat} (h : WorkerStep p i q) :
    ∃ st st', p.stages[i]? = some st ∧ q.stages = p.stages.set i st' ∧
      st'.link_out = st.link_out ∧ st'.kind = st.kind ∧ st'.running = st.running ∧
      q.dtor = p.dtor := by
  cases h with
  | check_first st func hst hk hpc => exact ⟨st, _, hst, rfl, rfl, rfl, rfl, rfl⟩
  | check_relay st func li hst hk hpc => exact ⟨st, _, hst, rfl, rfl, rfl, rfl, rfl⟩
  | call st func hst hk hpc => exact ⟨st, _, hst, rfl, rfl, rfl, rfl, rfl⟩
  | take st func li hst hk hpc hd => exact ⟨st, _, hst, rfl, rfl, rfl, rfl, rfl⟩
  | work st func li d hst hk hpc => exact ⟨st, _, hst, rfl, rfl, rfl, rfl, rfl⟩
  | put st d hst hpc hd => exact ⟨st, _, hst, rfl, rfl, rfl, rfl, rfl⟩

theorem consumeStep_sound {p q : Pipeline α} (h : consumeStep p = some q) :
    (p.pipeline_links (p.stages.length - 1)).has_data = true ∧
    q = { p with
      pipeline_links := (setLink p.pipeline_links (p.stages.length - 1)
        { has_data := false, buffer := (p.pipeline_links (p.stages.length - 1)).buffer }),
      returned := p.returned ++ [(p.pipeline_links (p.stages.length - 1)).buffer] } := by
  unfold consumeStep Pipeline.get_future link_take at h
  cases hd : (p.pipeline_links (p.stages.length - 1)).has_data with
  | false => simp [hd] at h
  | true =>
      simp only [hd, if_true, Option.some.injEq] at h
      exact ⟨rfl, h.symm⟩

/-! ## Accounting is preserved while no teardown runs -/

theorem accounted_quiet {f : Nat → α} {p : Pipeline α} {i : Nat} {st st' : GenericStage α}
    (hacc : Accounted f p) (hi : p.stages[i]? = some st) (hlo : st'.link_out = st.link_out)
    (hk : st'.kind = st.kind) (hh : st'.held = st.held) :
    Accounted f (p.setStage i st') := by
  obtain ⟨pre, post, hp, _, hset⟩ := getElem?_split hi
  unfold Accounted at hacc ⊢
  simp only [Pipeline.setStage, hset]
  rw [hp] at hacc
  rw [downstream_congr pre post st st' hk, ← hacc, pending_split, pending_split]
  simp [slot, hlo, hh, GenericStage.xf, hk]

theorem first_at_zero {n i : Nat} {l : List (GenericStage α)} {st : GenericStage α}
    {func : Nat → α} (hw : Wired n l) (hi : l[i]? = some st)
    (hk : st.kind = StageKind.FirstStage func) : n + i = 0 := by
  have := (wired_getElem hw hi).2
  cases hni : n + i with
  | zero => rfl
  | succ m => simp [hni, GenericStage.link_in, hk] at this

theorem relay_link_in {i : Nat} {l : List (GenericStage α)} {st : GenericStage α}
    {func : α → α} {li : Nat} (hw : Wired 0 l) (hi : l[i]? = some st)
    (hk : st.kind = StageKind.Stage func li) : i = li + 1 := by
  have := (wired_getElem hw hi).2
  cases i with
  | zero => simp [GenericStage.link_in, hk] at this
  | succ m =>
      simp [GenericStage.link_in, hk] at this
      omega

theorem accounted_call {f : Nat → α} {p : Pipeline α} {i : Nat} {st : GenericStage α}
    (hw : Wired 0 p.stages) (hacc : Accounted f p) (hi : p.stages[i]? = some st)
    (hk : st.kind = StageKind.FirstStage f) (hpc : st.pc = Loc.call) :
    Accounted f ({ p with produced := p.produced + 1 }.setStage i
      { st with pc := Loc.put (f p.produced) }) := by
  have hi0 : i = 0 := by
    have := first_at_zero hw hi hk
    omega
  subst hi0
  obtain ⟨pre, post, hp, hlen, hset⟩ := getElem?_split hi
  have hpre : pre = [] := List.length_eq_zero.mp hlen
  subst hpre
  unfold Accounted at hacc ⊢
  simp only [Pipeline.setStage, hset, List.nil_append] at hacc ⊢
  rw [hp] at hacc
  simp only [List.nil_append, pending, downstream, GenericStage.held, hpc, GenericStage.xf, hk,
    List.append_nil, id] at hacc
  simp only [pending, downstream, GenericStage.held, GenericStage.xf, hk, id, List.range_succ,
    List.map_append, List.map_cons, List.map_nil, slot]
  rw [← hacc]
  simp [slot]

theorem accounted_put {f : Nat → α} {p : Pipeline α} {i : Nat} {st : GenericStage α} {d : α}
    (hw : Wired 0 p.stages) (hacc : Accounted f p) (hi : p.stages[i]? = some st)
    (hpc : st.pc = Loc.put d) (hd : (p.pipeline_links st.link_out).has_data = false) :
    Accounted f ({ p with pipeline_links := (setLink p.pipeline_links st.link_out
      { has_data := true, buffer := d }) }.setStage i { st with pc := Loc.check }) := by
  obtain ⟨pre, post, hp, hlen, hset⟩ := getElem?_split hi
  rw [hp, wired_append] at hw
  have hlo : st.link_out = pre.length := by simpa using hw.2.1.1
  have hpre : ∀ s ∈ pre, s.link_out ≠ st.link_out := by
    intro s hs
    have := wired_bounds hw.1 s hs
    omega
  have hpost : ∀ s ∈ post, s.link_out ≠ st.link_out := by
    intro s hs
    have := wired_bounds hw.2.2 s hs
    omega
  unfold Accounted at hacc ⊢
  simp only [Pipeline.setStage, hset]
  rw [hp] at hacc
  rw [downstream_congr pre post st { st with pc := Loc.check } rfl, ← hacc, pending_split,
    pending_split, pending_setLink_of_ne _ _ _ _ hpre, pending_setLink_of_ne _ _ _ _ hpost]
  simp [slot, setLink, hd, GenericStage.held, hpc, GenericStage.xf]

theorem accounted_take {f : Nat → α} {p : Pipeline α} {i : Nat} {st : GenericStage α}
    {func : α → α} {li : Nat}
    (hw : Wired 0 p.stages) (hacc : Accounted f p) (hi : p.stages[i]? = some st)
    (hk : st.kind = StageKind.Stage func li) (hpc : st.pc = Loc.take)
    (hd : (p.pipeline_links li).has_data = true) :
    Accounted f ({ p with pipeline_links := (setLink p.pipeline_links li
        { has_data := false, buffer := (p.pipeline_links li).buffer }) }.setStage i
      { st with pc := Loc.work (p.pipeline_links li).buffer }) := by
  have hili := relay_link_in hw hi hk
  obtain ⟨pre, post, hp, hlen, hset⟩ := getElem?_split hi
  rcases List.eq_nil_or_concat pre with hnil | ⟨pre', sp, hpre⟩
  · subst hnil
    simp at hlen
    omega
  rw [List.concat_eq_append] at hpre
  subst hpre
  have hlen' : pre'.length = li := by
    simp at hlen
    omega
  rw [hp, wired_append, wired_append] at hw
  obtain ⟨⟨hw1, hw2⟩, hw3, hw4⟩ := hw
  have hsp : sp.link_out = li := by
    have := hw2.1.1
    omega
  have hst : st.link_out = li + 1 := by
    have := hw3.1
    simp at this
    omega
  have hpre : ∀ s ∈ pre', s.link_out ≠ li := by
    intro s hs
    have := wired_bounds hw1 s hs
    omega
  have hpost : ∀ s ∈ post, s.link_out ≠ li := by
    intro s hs
    have := wired_bounds hw4 s hs
    simp at this
    omega
  unfold Accounted at hacc ⊢
  simp only [Pipeline.setStage, hset]
  rw [hp] at hacc
  rw [downstream_congr (pre' ++ [sp]) post st
    { st with pc := Loc.work (p.pipeline_links li).buffer } rfl, ← hacc]
  simp only [List.append_assoc, List.singleton_append]
  rw [pending_split, pending_split, pending_setLink_of_ne _ _ _ _ hpre]
  simp only [pending]
  rw [pending_setLink_of_ne _ _ _ _ hpost]
  simp [slot, setLink, hsp, hst, hd, GenericStage.held, hpc, GenericStage.xf, hk, downstream]

theorem accounted_consume {f : Nat → α} {p q : Pipeline α}
    (hw : Wired 0 p.stages) (hne : p.stages ≠ []) (hacc : Accounted f p)
    (h : consumeStep p = some q) : Accounted f q := by
  obtain ⟨hd, rfl⟩ := consumeStep_sound h
  rcases List.eq_nil_or_concat p.stages with hnil | ⟨pre, st, hp⟩
  · exact absurd hnil hne
  rw [List.concat_eq_append] at hp
  have hk : p.stages.length - 1 = pre.length := by simp [hp]
  rw [hk] at hd ⊢
  rw [hp, wired_append] at hw
  have hst : st.link_out = pre.length := by simpa using hw.2.1.1
  have hpre : ∀ s ∈ pre, s.link_out ≠ pre.length := by
    intro s hs
    have := wired_bounds hw.1 s hs
    omega
  unfold Accounted at hacc ⊢
  simp only []
  rw [hp] at hacc ⊢
  rw [← hacc, pending_split, pending_split, pending_setLink_of_ne _ _ _ _ hpre]
  simp [slot, setLink, hst, hd, pending, downstream]

/-! ## Invariants along executions -/

theorem dtorStep_sound {p q : Pipeline α} {b : Bool} (h : dtorStep p b = some q) :
    DtorStep p b q := by
  unfold dtorStep at h
  cases hd : p.dtor with
  | idle => simp only [hd, Option.some.injEq] at h; subst h; exact .enter hd
  | store i =>
      simp only [hd] at h
      cases hst : p.stages[i]? with
      | none => simp [hst] at h
      | some st => simp only [hst, Option.some.injEq] at h; subst h; exact .store i st hd hst
  | try_lock i =>
      simp only [hd] at h
      cases hst : p.stages[i]? with
      | none => simp [hst] at h
      | some st => simp only [hst, Option.some.injEq] at h; subst h; exact .try_lock i st hd hst
  | join i =>
      simp only [hd] at h
      cases hst : p.stages[i]? with
      | none => simp [hst] at h
      | some st =>
          simp only [hst] at h
          cases hpc : st.pc with
          | done => simp only [hpc, Option.some.injEq] at h; subst h; exact .join i st hd hst hpc
          | check => simp [hpc] at h
          | call => simp [hpc] at h
          | take => simp [hpc] at h
          | work d => simp [hpc] at h
          | put d => simp [hpc] at h
  | finished => simp [hd] at h

theorem static_set {f : Nat → α} {p : Pipeline α} {i : Nat} {st : GenericStage α}
    (st' : GenericStage α) (h : Static f p) (hi : p.stages[i]? = some st) (hlo : st'.link_out = st.link_out)
    (hk : st'.kind = st.kind) (l : List (GenericStage α)) (hl : l = p.stages.set i st') :
    Wired 0 l ∧ l ≠ [] ∧ ProducerIs f l := by
  subst hl
  refine ⟨wired_set h.1 hi hlo hk, ?_, producerIs_set h.2.2 hi hk⟩
  intro hnil
  have := congrArg List.length hnil
  simp at this
  exact h.2.1 this

theorem static_step {f : Nat → α} {p q : Pipeline α} {l : Label} (h : Static f p)
    (hs : step p l = some q) : Static f q := by
  cases l with
  | worker i =>
      obtain ⟨st, st', hi, hq, hlo, hk, _, _⟩ := workerStep_stages (workerStep_sound hs)
      exact static_set st' h hi hlo hk _ hq
  | consume =>
      obtain ⟨_, rfl⟩ := consumeStep_sound hs
      exact h
  | teardown b =>
      cases dtorStep_sound hs with
      | enter hd => exact h
      | store i st hd hst =>
          exact static_set { st with running := false } h hst rfl rfl _ rfl
      | try_lock i st hd hst =>
          cases b with
          | true => exact h
          | false => exact h
      | join i st hd hst hpc => exact h

theorem static_new (f : Nat → α) (f_list : List (α → α)) (null : α) :
    Static f (Pipeline.new f f_list null) := by
  refine ⟨new_wired f f_list null, ?_, ?_⟩
  · intro h
    have := new_length f f_list null
    rw [h] at this
    simp at this
  · have key : ∀ (fs : List (α → α)) (i : Nat) (acc : List (GenericStage α)),
        ProducerIs f acc → ProducerIs f (ctorLoop fs i acc) := by
      intro fs
      induction fs with
      | nil => intro i acc h; simpa [ctorLoop] using h
      | cons fn rest ih =>
          intro i acc h
          simp only [ctorLoop]
          apply ih
          intro st hst g hg
          rcases List.mem_append.mp hst with hst | hst
          · exact h st hst g hg
          · simp only [List.mem_singleton] at hst
            subst hst
            simp [Stage.new] at hg
    apply key
    intro st hst g hg
    simp only [List.mem_singleton] at hst
    subst hst
    simp only [FirstStage.new, StageKind.FirstStage.injEq] at hg
    exact hg.symm

theorem static_run {f : Nat → α} {p q : Pipeline α} {ls : List Label} (h : Static f p)
    (hr : run p ls = some q) : Static f q := by
  induction ls generalizing p with
  | nil => simp only [run, Option.some.injEq] at hr; subst hr; exact h
  | cons l ls ih =>
      simp only [run] at hr
      cases hs : step p l with
      | none => simp [hs] at hr
      | some r =>
          simp only [hs] at hr
          exact ih (static_step h hs) hr

theorem accounted_step {f : Nat → α} {p q : Pipeline α} {l : Label} (h : Static f p)
    (hacc : Accounted f p) (hl : l.isTeardown = false) (hs : step p l = some q) :
    Accounted f q := by
  cases l with
  | worker i =>
      cases workerStep_sound hs with
      | check_first st func hst hk hpc =>
          refine accounted_quiet hacc hst rfl rfl ?_
          cases st.running <;> simp [GenericStage.held, hpc]
      | check_relay st func li hst hk hpc =>
          refine accounted_quiet hacc hst rfl rfl ?_
          cases st.running <;> simp [GenericStage.held, hpc]
      | call st func hst hk hpc =>
          have hmem : st ∈ p.stages := List.getElem?_mem hst
          have hf := h.2.2 st hmem func hk
          subst hf
          exact accounted_call h.1 hacc hst hk hpc
      | take st func li hst hk hpc hd => exact accounted_take h.1 hacc hst hk hpc hd
      | work st func li d hst hk hpc =>
          refine accounted_quiet hacc hst rfl rfl ?_
          simp [GenericStage.held, hpc, GenericStage.xf, hk]
      | put st d hst hpc hd => exact accounted_put h.1 hacc hst hpc hd
  | consume => exact accounted_consume h.1 h.2.1 hacc hs
  | teardown b => simp [Label.isTeardown] at hl

theorem accounted_new (f : Nat → α) (f_list : List (α → α)) (null : α) :
    Accounted f (Pipeline.new f f_list null) := by
  unfold Accounted
  have key : ∀ (l : List (GenericStage α)), (∀ st ∈ l, st.pc = Loc.check) →
      pending (fun _ => ({ has_data := false, buffer := null } : pipeline_link α)) l = [] := by
    intro l
    induction l with
    | nil => intro _; rfl
    | cons a rest ih =>
        intro h
        simp only [pending]
        rw [ih (fun s hs => h s (List.mem_cons_of_mem _ hs))]
        simp [slot, GenericStage.held, h a (List.mem_cons_self _ _)]
  have hchk : ∀ (fs : List (α → α)) (i : Nat) (acc : List (GenericStage α)),
      (∀ st ∈ acc, st.pc = Loc.check) → ∀ st ∈ ctorLoop fs i acc, st.pc = Loc.check := by
    intro fs
    induction fs with
    | nil => intro i acc h; simpa [ctorLoop] using h
    | cons fn rest ih =>
        intro i acc h
        simp only [ctorLoop]
        apply ih
        intro st hst
        rcases List.mem_append.mp hst with hst | hst
        · exact h st hst
        · simp only [List.mem_singleton] at hst
          subst hst
          rfl
  simp only [Pipeline.new, List.range_zero, List.map_nil, List.nil_append]
  apply key
  apply hchk
  intro st hst
  simp only [List.mem_singleton] at hst
  subst hst
  rfl

theorem accounted_run {f : Nat → α} {p q : Pipeline α} {ls : List Label} (h : Static f p)
    (hacc : Accounted f p) (hno : NoTeardown ls) (hr : run p ls = some q) :
    Accounted f q := by
  induction ls generalizing p with
  | nil => simp only [run, Option.some.injEq] at hr; subst hr; exact hacc
  | cons l ls ih =>
      simp only [run] at hr
      cases hs : step p l with
      | none => simp [hs] at hr
      | some r =>
          simp only [hs] at hr
          exact ih (static_step h hs)
            (accounted_step h hacc (hno l (List.mem_cons_self _ _)) hs)
            (fun x hx => hno x (List.mem_cons_of_mem _ hx)) hr

theorem downstream_set {l : List (GenericStage α)} {i : Nat} {st : GenericStage α}
    (st' : GenericStage α) (hi : l[i]? = some st) (hk : st'.kind = st.kind) :
    downstream (l.set i st') = downstream l := by
  obtain ⟨pre, post, hl, _, hset⟩ := getElem?_split hi
  rw [hset, hl]
  exact downstream_congr pre post st st' hk

theorem downstream_step {p q : Pipeline α} {l : Label} (hs : step p l = some q) :
    downstream q.stages = downstream p.stages := by
  cases l with
  | worker i =>
      obtain ⟨st, st', hi, hq, _, hk, _, _⟩ := workerStep_stages (workerStep_sound hs)
      rw [hq]
      exact downstream_set st' hi hk
  | consume =>
      obtain ⟨_, rfl⟩ := consumeStep_sound hs
      rfl
  | teardown b =>
      cases dtorStep_sound hs with
      | enter hd => rfl
      | store i st hd hst => exact downstream_set { st with running := false } hst rfl
      | try_lock i st hd hst => cases b <;> rfl
      | join i st hd hst hpc => rfl

theorem downstream_run {p q : Pipeline α} {ls : List Label} (hr : run p ls = some q) :
    downstream q.stages = downstream p.stages := by
  induction ls generalizing p with
  | nil => simp only [run, Option.some.injEq] at hr; subst hr; rfl
  | cons l ls ih =>
      simp only [run] at hr
      cases hs : step p l with
      | none => simp [hs] at hr
      | some r =>
          simp only [hs] at hr
          rw [ih hr, downstream_step hs]

theorem downstream_new (f : Nat → α) (f_list : List (α → α)) (null : α) (x : α) :
    downstream (Pipeline.new f f_list null).stages x = composed f_list x := by
  have key : ∀ (fs : List (α → α)) (i : Nat) (acc : List (GenericStage α)) (y : α),
      downstream (ctorLoop fs i acc) y = composed fs (downstream acc y) := by
    intro fs
    induction fs with
    | nil => intro i acc y; rfl
    | cons fn rest ih =>
        intro i acc y
        simp only [ctorLoop]
        rw [ih, downstream_append]
        rfl
  simp only [Pipeline.new]
  rw [key]
  rfl

theorem put_blocked {p : Pipeline α} {i : Nat} {st : GenericStage α} {d : α}
    (hi : p.stages[i]? = some st) (hpc : st.pc = Loc.put d)
    (hd : (p.pipeline_links st.link_out).has_data = true) : workerStep p i = none := by
  unfold workerStep
  simp only [hi]
  cases st.kind <;> simp [FirstStage_run, Stage_run, link_put, hpc, hd]

theorem accounted_reachable {f : Nat → α} {f_list : List (α → α)} {null : α}
    {ls : List Label} {q : Pipeline α} (hno : NoTeardown ls)
    (hrun : run (Pipeline.new f f_list null) ls = some q) :
    q.returned ++ pending q.pipeline_links q.stages =
      (List.range q.produced).map (fun n => composed f_list (f n)) := by
  have h := accounted_run (static_new f f_list null) (accounted_new f f_list null) hno hrun
  unfold Accounted at h
  rw [h]
  apply List.map_congr_left
  intro n _
  rw [downstream_run hrun, downstream_new]

/-! ## The claims about executions without teardown -/

/-- C1. End-to-end FIFO and transform correctness. In every execution of a pipeline built
from a producer f and transforms f_list in which the destructor has not been entered, the
values get_future has returned are, in order, the first values of the producer mapped
through the composed transforms: the n-th returned value is composed f_list (f n), and the
returned sequence is an initial segment of the produced sequence mapped that way. -/
theorem C1_fifo_transform (f : Nat → α) (f_list : List (α → α)) (null : α)
    (ls : List Label) (q : Pipeline α) (hno : NoTeardown ls)
    (hrun : run (Pipeline.new f f_list null) ls = some q) :
    q.returned.length ≤ q.produced ∧
    q.returned = (List.range q.returned.length).map (fun n => composed f_list (f n)) ∧
    q.returned <+: (List.range q.produced).map (fun n => composed f_list (f n)) ∧
    ∀ n, n < q.returned.length → q.returned[n]? = some (composed f_list (f n)) := by
  have h := accounted_reachable hno hrun
  have hlen : q.returned.length ≤ q.produced := by
    have := congrArg List.length h
    simp at this
    omega
  have heq : q.returned =
      (List.range q.returned.length).map (fun n => composed f_list (f n)) := by
    have h2 := congrArg (List.take q.returned.length) h
    rw [List.take_left', ← List.map_take, List.take_range, Nat.min_eq_left hlen] at h2
    · exact h2
    · rfl
  refine ⟨hlen, heq, ⟨_, h⟩, ?_⟩
  intro n hn
  rw [heq]
  simp [hn]

/-- C1, witness: the demo pipeline (producer 0, 1, 2, ..., first transform double, second
transform increment) run for ten rounds returns 1, 3, 5, ..., 19. -/
theorem C1_witness :
    NoTeardown demoSchedule ∧
    (run demo demoSchedule).map Pipeline.returned = some [1, 3, 5, 7, 9, 11, 13, 15, 17, 19] ∧
    ∃ q, run demo demoSchedule = some q ∧
      q.returned = (List.range q.returned.length).map
        (fun n => composed [fun x => 2 * x, fun x => x + 1] ((fun n => n) n)) := by
  refine ⟨by decide, by decide, ?_⟩
  obtain ⟨q, hq⟩ := Option.isSome_iff_exists.mp
    (show (run demo demoSchedule).isSome = true by decide)
  exact ⟨q, hq, (C1_fifo_transform (fun n => n) [fun x => 2 * x, fun x => x + 1] 0
    demoSchedule q (by decide) hq).2.1⟩

/-- C7. Backpressure without loss. In every execution in which the destructor has not been
entered: every item the producer has returned is accounted for exactly once, in order, as
either returned by get_future or in flight (the payload of an occupied link, or held by
one stage thread before its put), each in flight item counted with the transforms it has
still to pass; a put is not enabled while its link is occupied, so no put overwrites an
occupied link; in particular the source stage cannot complete a put while link 0 is
occupied. -/
theorem C7_backpressure_no_loss (f : Nat → α) (f_list : List (α → α)) (null : α)
    (ls : List Label) (q : Pipeline α) (hno : NoTeardown ls)
    (hrun : run (Pipeline.new f f_list null) ls = some q) :
    q.returned ++ pending q.pipeline_links q.stages =
      (List.range q.produced).map (fun n => composed f_list (f n)) ∧
    (∀ i st d, q.stages[i]? = some st → st.pc = Loc.put d →
      (q.pipeline_links st.link_out).has_data = true → workerStep q i = none) ∧
    ((q.pipeline_links 0).has_data = true →
      ∀ st d, q.stages[0]? = some st → st.pc = Loc.put d → workerStep q 0 = none) := by
  refine ⟨accounted_reachable hno hrun, ?_, ?_⟩
  · intro i st d hi hpc hd
    exact put_blocked hi hpc hd
  · intro hd st d hi hpc
    have hw := (static_run (static_new f f_list null) hrun).1
    have hlo : st.link_out = 0 := wired_link_out hw hi
    exact put_blocked hi hpc (by rw [hlo]; exact hd)

/-- C7, witness: in the demo pipeline the producer fills link 0 and produces a second item
while nothing is taken; both items stay accounted for and its put is not enabled. -/
theorem C7_witness :
    NoTeardown stalledSchedule ∧
    ∃ q, run demo stalledSchedule = some q ∧
      q.returned ++ pending q.pipeline_links q.stages =
        (List.range q.produced).map
          (fun n => composed [fun x => 2 * x, fun x => x + 1] ((fun n => n) n)) ∧
      run demo (stalledSchedule ++ [Label.worker 0]) = none := by
  refine ⟨by decide, ?_⟩
  obtain ⟨q, hq⟩ := Option.isSome_iff_exists.mp
    (show (run demo stalledSchedule).isSome = true by decide)
  exact ⟨q, hq, (C7_backpressure_no_loss (fun n => n) [fun x => 2 * x, fun x => x + 1] 0
    stalledSchedule q (by decide) hq).1, rfl⟩

/-! ## The effect of single steps -/

theorem take_enabled {p : Pipeline α} {i : Nat} {st : GenericStage α} {func : α → α} {li : Nat}
    (hi : p.stages[i]? = some st) (hk : st.kind = StageKind.Stage func li)
    (hpc : st.pc = Loc.take) :
    workerStep p i =
      if (p.pipeline_links li).has_data then
        some ({ p with pipeline_links := (setLink p.pipeline_links li
            { has_data := false, buffer := (p.pipeline_links li).buffer }) }.setStage i
          { st with pc := Loc.work (p.pipeline_links li).buffer })
      else none := by
  unfold workerStep
  simp only [hi, hk, Stage_run, hpc, link_take]
  cases (p.pipeline_links li).has_data <;> simp

theorem put_enabled {p : Pipeline α} {i : Nat} {st : GenericStage α} {d : α}
    (hi : p.stages[i]? = some st) (hpc : st.pc = Loc.put d) :
    workerStep p i =
      if (p.pipeline_links st.link_out).has_data then none
      else some ({ p with pipeline_links := (setLink p.pipeline_links st.link_out
          { has_data := true, buffer := d }) }.setStage i { st with pc := Loc.check }) := by
  unfold workerStep
  simp only [hi]
  obtain ⟨lo, si, r, k, pc⟩ := st
  simp only at hpc
  subst hpc
  cases k <;>
    simp only [FirstStage_run, Stage_run, link_put] <;>
    cases (p.pipeline_links lo).has_data <;> simp

/-- C5. Retrieval consumes exactly one item from the final link. get_future proceeds
exactly when the link at index stages.size()-1 is occupied; when it proceeds it returns
the payload that link held, leaves that link unoccupied, changes no other link and no
stage, and one call hands out one value. The take step of a relay stage on its upstream
link has the same effect: enabled exactly when that link is occupied, the stage then holds
the payload, the link is unoccupied and no other link changes. -/
theorem C5_retrieval_take (p : Pipeline α) :
    (p.get_future.isSome = (p.pipeline_links (p.stages.length - 1)).has_data) ∧
    (∀ data q, p.get_future = some (data, q) →
      data = (p.pipeline_links (p.stages.length - 1)).buffer ∧
      (q.pipeline_links (p.stages.length - 1)).has_data = false ∧
      (∀ j, j ≠ p.stages.length - 1 → q.pipeline_links j = p.pipeline_links j) ∧
      q.stages = p.stages ∧
      consumeStep p = some { q with returned := p.returned ++ [data] }) ∧
    (∀ i st func li, p.stages[i]? = some st → st.kind = StageKind.Stage func li →
      st.pc = Loc.take →
      ((workerStep p i).isSome = (p.pipeline_links li).has_data) ∧
      ∀ q, workerStep p i = some q →
        q.stages = p.stages.set i { st with pc := Loc.work (p.pipeline_links li).buffer } ∧
        (q.pipeline_links li).has_data = false ∧
        (∀ j, j ≠ li → q.pipeline_links j = p.pipeline_links j)) := by
  refine ⟨?_, ?_, ?_⟩
  · unfold Pipeline.get_future link_take
    cases (p.pipeline_links (p.stages.length - 1)).has_data <;> simp
  · intro data q h
    have h' := h
    unfold Pipeline.get_future link_take at h
    cases hd : (p.pipeline_links (p.stages.length - 1)).has_data with
    | false => simp [hd] at h
    | true =>
        simp only [hd, if_true, Option.some.injEq, Prod.mk.injEq] at h
        obtain ⟨h1, h2⟩ := h
        subst h2
        refine ⟨h1.symm, by simp [setLink], ?_, rfl, ?_⟩
        · intro j hj
          simp [setLink, hj]
        · simp [consumeStep, h']
  · intro i st func li hi hk hpc
    rw [take_enabled hi hk hpc]
    cases hd : (p.pipeline_links li).has_data with
    | false => simp
    | true =>
        refine ⟨by simp, ?_⟩
        intro q hq
        simp only [if_true, Option.some.injEq] at hq
        subst hq
        refine ⟨rfl, by simp [Pipeline.setStage, setLink], ?_⟩
        intro j hj
        simp [Pipeline.setStage, setLink, hj]

/-- C6. Put contract, in every state reachable from a constructed pipeline. The value a
stage carries to its put is the value its user function returned in that iteration (the
steps from call and from work). The put step is enabled exactly when the downstream link
is unoccupied; when it proceeds that link is occupied with exactly that value, the
upstream link of the stage and every other link are unchanged. A put followed by a take
on the same link returns the item that was put and leaves the link unoccupied. -/
theorem C6_put_contract (f : Nat → α) (f_list : List (α → α)) (null : α)
    (ls : List Label) (p : Pipeline α) (hrun : run (Pipeline.new f f_list null) ls = some p) :
    ∀ i st, p.stages[i]? = some st →
      (∀ func, st.kind = StageKind.FirstStage func → st.pc = Loc.call →
        workerStep p i = some ({ p with produced := p.produced + 1 }.setStage i
          { st with pc := Loc.put (func p.produced) })) ∧
      (∀ func li x, st.kind = StageKind.Stage func li → st.pc = Loc.work x →
        workerStep p i = some (p.setStage i { st with pc := Loc.put (func x) })) ∧
      (∀ d, st.pc = Loc.put d →
        ((workerStep p i).isSome = !(p.pipeline_links st.link_out).has_data) ∧
        ∀ q, workerStep p i = some q →
          q.pipeline_links st.link_out = { has_data := true, buffer := d } ∧
          (∀ li, st.link_in = some li → q.pipeline_links li = p.pipeline_links li) ∧
          (∀ j, j ≠ st.link_out → q.pipeline_links j = p.pipeline_links j) ∧
          link_take (q.pipeline_links st.link_out) = some (d, { has_data := false, buffer := d }) ∧
          (∀ l l', link_put l d = some l' →
            ∃ l'', link_take l' = some (d, l'') ∧ l''.has_data = false)) := by
  intro i st hi
  have hw := (static_run (static_new f f_list null) hrun).1
  refine ⟨?_, ?_, ?_⟩
  · intro func hk hpc
    unfold workerStep
    simp [hi, hk, FirstStage_run, hpc]
  · intro func li x hk hpc
    unfold workerStep
    simp [hi, hk, Stage_run, hpc]
  · intro d hpc
    rw [put_enabled hi hpc]
    cases hd : (p.pipeline_links st.link_out).has_data with
    | true => simp
    | false =>
        refine ⟨by simp, ?_⟩
        intro q hq
        simp only [Bool.false_eq_true, if_false, Option.some.injEq] at hq
        subst hq
        refine ⟨by simp [Pipeline.setStage, setLink], ?_, ?_, ?_, ?_⟩
        · intro li hli
          have hlo := wired_link_out hw hi
          have hne : li ≠ st.link_out := by
            cases i with
            | zero =>
                have := wired_link_in_zero hw hi
                rw [this] at hli
                cases hli
            | succ m =>
                have := wired_link_in_succ hw hi
                rw [this] at hli
                cases hli
                omega
          simp [Pipeline.setStage, setLink, hne]
        · intro j hj
          simp [Pipeline.setStage, setLink, hj]
        · simp [Pipeline.setStage, setLink, link_take]
        · intro l l' hl
          unfold link_put at hl
          cases hl2 : l.has_data with
          | true => simp [hl2] at hl
          | false =>
              simp only [hl2, Bool.false_eq_true, if_false, Option.some.injEq] at hl
              subst hl
              exact ⟨_, rfl, rfl⟩

theorem getElem?_set_cases {β : Type} (l : List β) (i j : Nat) (x y : β)
    (h : l[j]? = some x) :
    ∃ z, (l.set i y)[j]? = some z ∧ (j ≠ i → z = x) ∧ (j = i → z = y) := by
  by_cases hji : j = i
  · subst hji
    have hlt : j < l.length := by
      rcases List.getElem?_eq_some.mp h with ⟨hlt, _⟩
      exact hlt
    exact ⟨y, by simp [hlt], fun hne => absurd rfl hne, fun _ => rfl⟩
  · refine ⟨x, ?_, fun _ => rfl, fun he => absurd he hji⟩
    rw [List.getElem?_set_ne (fun he => hji he.symm)]
    exact h

theorem stopping_step {p q : Pipeline α} {l : Label} (h : Stopping p)
    (hs : step p l = some q) : Stopping q := by
  cases l with
  | worker j =>
      obtain ⟨st, st', hj, hq, _, _, hrun, hd⟩ := workerStep_stages (workerStep_sound hs)
      intro i hi
      rw [hd] at hi
      obtain ⟨s, hs1, hs2⟩ := h i hi
      obtain ⟨z, hz, hne, heq⟩ := getElem?_set_cases p.stages j i s st' hs1
      refine ⟨z, by rw [hq]; exact hz, ?_⟩
      by_cases hij : i = j
      · subst hij
        rw [heq rfl, hrun]
        rw [hs1] at hj
        cases hj
        exact hs2
      · rw [hne hij]
        exact hs2
  | consume =>
      obtain ⟨_, rfl⟩ := consumeStep_sound hs
      exact h
  | teardown b =>
      cases dtorStep_sound hs with
      | enter hd =>
          intro i hi
          simp only [dtorNext] at hi
          split at hi <;> simp at hi
      | store k st hd hst =>
          intro i hi
          simp only [dtor_store, Pipeline.setStage] at hi ⊢
          have hik : k = i := by
            rcases hi with hi | hi <;> simp at hi
            exact hi
          subst hik
          obtain ⟨z, hz, _, heq⟩ :=
            getElem?_set_cases p.stages k k st { st with running := false } hst
          exact ⟨z, hz, by rw [heq rfl]⟩
      | try_lock k st hd hst =>
          intro i hi
          have hq : (dtor_try_lock p k st b).dtor = Dtor.join k ∧
              (dtor_try_lock p k st b).stages = p.stages := by
            cases b <;> exact ⟨rfl, rfl⟩
          rw [hq.1] at hi
          rw [hq.2]
          have hik : k = i := by
            rcases hi with hi | hi <;> simp at hi
            exact hi
          subst hik
          exact h k (Or.inl hd)
      | join k st hd hst hpc =>
          intro i hi
          simp only [dtorNext] at hi
          split at hi <;> simp at hi

theorem stopping_run {p q : Pipeline α} {ls : List Label} (h : Stopping p)
    (hr : run p ls = some q) : Stopping q := by
  induction ls generalizing p with
  | nil => simp only [run, Option.some.injEq] at hr; subst hr; exact h
  | cons l ls ih =>
      simp only [run] at hr
      cases hs : step p l with
      | none => simp [hs] at hr
      | some r =>
          simp only [hs] at hr
          exact ih (stopping_step h hs) hr

/-- C9. Effect of the forced unblock, in every state reachable from a constructed
pipeline. The store of the destructor of stage i is always enabled and clears the running
flag of stage i, changing no link and no other stage; when the try_lock is reached the
flag is already false. If the lock is acquired the step sets has_data of the downstream
link to false and leaves the payload of that link, the upstream link of the stage, every
other link and every stage unchanged. If the lock is not acquired the step changes no
link and no stage. -/
theorem C9_forced_unblock (f : Nat → α) (f_list : List (α → α)) (null : α)
    (ls : List Label) (p : Pipeline α) (hrun : run (Pipeline.new f f_list null) ls = some p) :
    ∀ i st, p.stages[i]? = some st →
      (p.dtor = Dtor.store i → ∀ b, ∃ q, dtorStep p b = some q ∧
        q.stages = p.stages.set i { st with running := false } ∧
        q.pipeline_links = p.pipeline_links ∧ q.dtor = Dtor.try_lock i) ∧
      (p.dtor = Dtor.try_lock i →
        st.running = false ∧
        (∃ q, dtorStep p true = some q ∧
          (q.pipeline_links st.link_out).has_data = false ∧
          (q.pipeline_links st.link_out).buffer = (p.pipeline_links st.link_out).buffer ∧
          (∀ li, st.link_in = some li → q.pipeline_links li = p.pipeline_links li) ∧
          (∀ j, j ≠ st.link_out → q.pipeline_links j = p.pipeline_links j) ∧
          q.stages = p.stages) ∧
        (∃ q, dtorStep p false = some q ∧
          q.pipeline_links = p.pipeline_links ∧ q.stages = p.stages)) := by
  intro i st hi
  have hw := (static_run (static_new f f_list null) hrun).1
  have hstop : Stopping p := by
    refine stopping_run ?_ hrun
    intro k hk
    simp [Pipeline.new] at hk
  refine ⟨?_, ?_⟩
  · intro hd b
    refine ⟨dtor_store p i st, ?_, rfl, rfl, rfl⟩
    simp [dtorStep, hd, hi]
  · intro hd
    refine ⟨?_, ?_, ?_⟩
    · obtain ⟨s, hs1, hs2⟩ := hstop i (Or.inl hd)
      rw [hi] at hs1
      cases hs1
      exact hs2
    · refine ⟨dtor_try_lock p i st true, by simp [dtorStep, hd, hi], ?_, ?_, ?_, ?_, rfl⟩
      · simp [dtor_try_lock, setLink]
      · simp [dtor_try_lock, setLink]
      · intro li hli
        have hlo := wired_link_out hw hi
        have hne : li ≠ st.link_out := by
          cases i with
          | zero =>
              have := wired_link_in_zero hw hi
              rw [this] at hli
              cases hli
          | succ m =>
              have := wired_link_in_succ hw hi
              rw [this] at hli
              cases hli
              omega
        simp [dtor_try_lock, setLink, hne]
      · intro j hj
        simp [dtor_try_lock, setLink, hj]
    · exact ⟨dtor_try_lock p i st false, by simp [dtorStep, hd, hi], rfl, rfl⟩

/-! ## Cooperative stop -/

theorem step_other_stage {p q : Pipeline α} {l : Label} {i : Nat} {st : GenericStage α}
    (hs : step p l = some q) (hi : p.stages[i]? = some st) :
    ∃ st', q.stages[i]? = some st' ∧ (st.running = false → st'.running = false) ∧
      (l ≠ Label.worker i → st'.pc = st.pc) := by
  cases l with
  | worker j =>
      obtain ⟨s, s', hj, hq, _, _, hrun, _⟩ := workerStep_stages (workerStep_sound hs)
      obtain ⟨z, hz, hne, heq⟩ := getElem?_set_cases p.stages j i st s' hi
      refine ⟨z, by rw [hq]; exact hz, ?_, ?_⟩
      · intro hr
        by_cases hij : i = j
        · subst hij
          rw [hi] at hj
          cases hj
          rw [heq rfl, hrun]
          exact hr
        · rw [hne hij]
          exact hr
      · intro hl
        have hij : i ≠ j := fun he => hl (by rw [he])
        rw [hne hij]
  | consume =>
      obtain ⟨_, rfl⟩ := consumeStep_sound hs
      exact ⟨st, hi, fun h => h, fun _ => rfl⟩
  | teardown b =>
      cases dtorStep_sound hs with
      | enter hd => exact ⟨st, hi, fun h => h, fun _ => rfl⟩
      | store k s hd hst =>
          obtain ⟨z, hz, hne, heq⟩ :=
            getElem?_set_cases p.stages k i st { s with running := false } hi
          refine ⟨z, hz, ?_, ?_⟩
          · intro hr
            by_cases hik : i = k
            · rw [heq hik]
            · rw [hne hik]
              exact hr
          · intro _
            by_cases hik : i = k
            · subst hik
              rw [hi] at hst
              cases hst
              rw [heq rfl]
            · rw [hne hik]
      | try_lock k s hd hst =>
          cases b <;> exact ⟨st, hi, fun h => h, fun _ => rfl⟩
      | join k s hd hst hpc => exact ⟨st, hi, fun h => h, fun _ => rfl⟩

theorem getElem?_set_self {β : Type} {l : List β} {i : Nat} {x : β} (y : β)
    (h : l[i]? = some x) : (l.set i y)[i]? = some y := by
  obtain ⟨z, hz, _, heq⟩ := getElem?_set_cases l i i x y h
  rw [hz, heq rfl]

theorem step_stopped {p q : Pipeline α} {l : Label} {i : Nat} {st : GenericStage α}
    (hs : step p l = some q) (hi : p.stages[i]? = some st) (hr : st.running = false) :
    ∃ st', q.stages[i]? = some st' ∧ st'.running = false ∧
      beginsIteration i p l = false ∧
      (if callsFunc i p l then 1 else 0) + callsLeft st' ≤ callsLeft st ∧
      (if completesPut i p l then 1 else 0) + putsLeft st' ≤ putsLeft st := by
  by_cases hl : l = Label.worker i
  · subst hl
    cases workerStep_sound hs with
    | check_first s func hst hk hpc =>
        rw [hi] at hst
        cases hst
        refine ⟨_, getElem?_set_self _ hi, hr, ?_, ?_, ?_⟩
        · simp [beginsIteration, stageAt, hi, hr]
        · simp [callsFunc, stageAt, hi, hpc, hr, Loc.atFunc, callsLeft]
        · simp [completesPut, stageAt, hi, hpc, hr, Loc.atPut, putsLeft]
    | check_relay s func li hst hk hpc =>
        rw [hi] at hst
        cases hst
        refine ⟨_, getElem?_set_self _ hi, hr, ?_, ?_, ?_⟩
        · simp [beginsIteration, stageAt, hi, hr]
        · simp [callsFunc, stageAt, hi, hpc, hr, Loc.atFunc, callsLeft]
        · simp [completesPut, stageAt, hi, hpc, hr, Loc.atPut, putsLeft]
    | call s func hst hk hpc =>
        rw [hi] at hst
        cases hst
        refine ⟨_, getElem?_set_self _ hi, hr, ?_, ?_, ?_⟩
        · simp [beginsIteration, stageAt, hi, hr]
        · simp [callsFunc, stageAt, hi, hpc, Loc.atFunc, callsLeft]
        · simp [completesPut, stageAt, hi, hpc, Loc.atPut, putsLeft]
    | take s func li hst hk hpc hd =>
        rw [hi] at hst
        cases hst
        refine ⟨_, getElem?_set_self _ hi, hr, ?_, ?_, ?_⟩
        · simp [beginsIteration, stageAt, hi, hr]
        · simp [callsFunc, stageAt, hi, hpc, Loc.atFunc, callsLeft]
        · simp [completesPut, stageAt, hi, hpc, Loc.atPut, putsLeft]
    | work s func li d hst hk hpc =>
        rw [hi] at hst
        cases hst
        refine ⟨_, getElem?_set_self _ hi, hr, ?_, ?_, ?_⟩
        · simp [beginsIteration, stageAt, hi, hr]
        · simp [callsFunc, stageAt, hi, hpc, Loc.atFunc, callsLeft]
        · simp [completesPut, stageAt, hi, hpc, Loc.atPut, putsLeft]
    | put s d hst hpc hd =>
        rw [hi] at hst
        cases hst
        refine ⟨_, getElem?_set_self _ hi, hr, ?_, ?_, ?_⟩
        · simp [beginsIteration, stageAt, hi, hr]
        · simp [callsFunc, stageAt, hi, hpc, Loc.atFunc, callsLeft]
        · simp [completesPut, stageAt, hi, hpc, Loc.atPut, putsLeft]
  · obtain ⟨st', hq, hr', hpc'⟩ := step_other_stage hs hi
    refine ⟨st', hq, hr' hr, ?_, ?_, ?_⟩
    · simp [beginsIteration, hl]
    · simp [callsFunc, hl, callsLeft, hpc' hl]
    · simp [completesPut, hl, putsLeft, hpc' hl]

theorem stopped_counts (i : Nat) (ls : List Label) :
    ∀ (p : Pipeline α) (st : GenericStage α), p.stages[i]? = some st → st.running = false →
      countEvents (beginsIteration i) p ls = 0 ∧
      countEvents (callsFunc i) p ls ≤ callsLeft st ∧
      countEvents (completesPut i) p ls ≤ putsLeft st := by
  induction ls with
  | nil => intro p st _ _; simp [countEvents]
  | cons l ls ih =>
      intro p st hi hr
      simp only [countEvents]
      cases hs : step p l with
      | none => simp
      | some q =>
          obtain ⟨st', hq, hr', hb, hc, hp⟩ := step_stopped hs hi hr
          obtain ⟨h1, h2, h3⟩ := ih q st' hq hr'
          simp only [hb, Bool.false_eq_true, if_false, Nat.zero_add]
          exact ⟨h1, by omega, by omega⟩

theorem callsLeft_le_one (st : GenericStage α) : callsLeft st ≤ 1 := by
  unfold callsLeft
  cases st.pc <;> simp

theorem putsLeft_le_one (st : GenericStage α) : putsLeft st ≤ 1 := by
  unfold putsLeft
  cases st.pc <;> simp

/-- C10. Cooperative stop at the top of the loop. For a stage whose running flag has been
cleared: a loop test made from now on ends run(); in every continuation of the execution
the worker begins no further iteration, evaluates its user function at most once more and
completes at most one more put; while it is at a put whose link is occupied, or at a take
whose link is empty, it has no step, whatever the flag says, and no step of another thread
moves its control point. -/
theorem C10_cooperative_stop (p : Pipeline α) (i : Nat) (st : GenericStage α)
    (hi : p.stages[i]? = some st) (hr : st.running = false) :
    (st.pc = Loc.check → workerStep p i = some (p.setStage i { st with pc := Loc.done })) ∧
    (st.pc = Loc.done → workerStep p i = none) ∧
    (∀ ls, countEvents (beginsIteration i) p ls = 0 ∧
      countEvents (callsFunc i) p ls ≤ 1 ∧ countEvents (completesPut i) p ls ≤ 1) ∧
    (∀ d, st.pc = Loc.put d → (p.pipeline_links st.link_out).has_data = true →
      workerStep p i = none) ∧
    (∀ func li, st.kind = StageKind.Stage func li → st.pc = Loc.take →
      (p.pipeline_links li).has_data = false → workerStep p i = none) ∧
    (∀ l q, step p l = some q → l ≠ Label.worker i →
      ∃ st', q.stages[i]? = some st' ∧ st'.pc = st.pc) := by
  refine ⟨?_, ?_, ?_, ?_, ?_, ?_⟩
  · intro hpc
    unfold workerStep
    simp only [hi]
    obtain ⟨lo, si, r, k, pc⟩ := st
    simp only at hpc hr
    subst hpc hr
    cases k <;> simp [FirstStage_run, Stage_run]
  · intro hpc
    unfold workerStep
    simp only [hi]
    cases st.kind <;> simp [FirstStage_run, Stage_run, hpc]
  · intro ls
    obtain ⟨h1, h2, h3⟩ := stopped_counts i ls p st hi hr
    have := callsLeft_le_one st
    have := putsLeft_le_one st
    exact ⟨h1, by omega, by omega⟩
  · intro d hpc hd
    exact put_blocked hi hpc hd
  · intro func li hk hpc hd
    rw [take_enabled hi hk hpc]
    simp [hd]
  · intro l q hs hl
    obtain ⟨st', hq, _, hpc'⟩ := step_other_stage hs hi
    exact ⟨st', hq, hpc' hl⟩

/-- C10, witness: in the demo pipeline the producer thread has passed its loop test when
the destructor clears its flag; it then evaluates the producer once, completes one put and
returns. -/
theorem C10_witness :
    stoppedDemo.stages[0]? = some stoppedStage ∧ stoppedStage.running = false ∧
    countEvents (callsFunc 0) stoppedDemo afterStopSchedule ≤ 1 ∧
    countEvents (callsFunc 0) stoppedDemo afterStopSchedule = 1 ∧
    countEvents (completesPut 0) stoppedDemo afterStopSchedule = 1 ∧
    (run stoppedDemo afterStopSchedule).isNone = true :=
  ⟨rfl, rfl,
    ((C10_cooperative_stop stoppedDemo 0 stoppedStage rfl rfl).2.2.1 afterStopSchedule).2.1,
    by decide, by decide, by decide⟩

/-! ## Teardown -/

theorem clears_bound {f : Nat → α} (j : Nat) (ls : List Label) :
    ∀ p : Pipeline α, Static f p →
      countEvents (clearsOccupied j) p ls ≤ (if Dtor.passed j p.dtor then 0 else 1) := by
  induction ls with
  | nil => intro p _; simp [countEvents]
  | cons l ls ih =>
      intro p hp
      simp only [countEvents]
      cases hs : step p l with
      | none => simp
      | some q =>
          have hq := ih q (static_step hp hs)
          simp only []
          cases l with
          | worker i =>
              obtain ⟨_, _, _, _, _, _, _, hd⟩ := workerStep_stages (workerStep_sound hs)
              rw [hd] at hq
              simpa [clearsOccupied] using hq
          | consume =>
              obtain ⟨_, hq'⟩ := consumeStep_sound hs
              have hd : q.dtor = p.dtor := by rw [hq']
              rw [hd] at hq
              simpa [clearsOccupied] using hq
          | teardown b =>
              cases dtorStep_sound hs with
              | enter hd =>
                  have : clearsOccupied j p (Label.teardown b) = false := by
                    cases b <;> simp [clearsOccupied, hd]
                  simp only [this, Bool.false_eq_true, if_false, Nat.zero_add, hd, Dtor.passed]
                  split at hq <;> omega
              | store i st hd hst =>
                  have : clearsOccupied j p (Label.teardown b) = false := by
                    cases b <;> simp [clearsOccupied, hd]
                  have hq2 : (dtor_store p i st).dtor = Dtor.try_lock i := rfl
                  rw [hq2] at hq
                  simpa [this, hd, Dtor.passed] using hq
              | try_lock i st hd hst =>
                  have hq2 : (dtor_try_lock p i st b).dtor = Dtor.join i := by
                    cases b <;> rfl
                  rw [hq2] at hq
                  have hlo : st.link_out = i := wired_link_out hp.1 hst
                  simp only [hd, Dtor.passed] at hq ⊢
                  by_cases hji : j < i
                  · have hne : ¬ (i = j) := by omega
                    have hle : j ≤ i := by omega
                    have : clearsOccupied j p (Label.teardown b) = false := by
                      cases b <;> simp [clearsOccupied, hd, stageAt, hst, hlo, hne]
                    simp only [this, hji, hle, decide_True, if_true] at hq ⊢
                    simpa using hq
                  · simp only [hji, decide_False, Bool.false_eq_true, if_false]
                    by_cases hev : clearsOccupied j p (Label.teardown b) = true
                    · have hij : i = j := by
                        cases b with
                        | false => simp [clearsOccupied] at hev
                        | true =>
                            simp only [clearsOccupied, hd, stageAt, hst, hlo, Bool.and_eq_true,
                              decide_eq_true_eq] at hev
                            exact hev.1
                      have hle : j ≤ i := by omega
                      simp only [hle, decide_True, if_true] at hq
                      simp only [hev, if_true]
                      omega
                    · simp only [hev, Bool.false_eq_true, if_false, Nat.zero_add]
                      split at hq <;> omega
              | join i st hd hst hpc =>
                  have : clearsOccupied j p (Label.teardown b) = false := by
                    cases b <;> simp [clearsOccupied, hd]
                  simp only [this, Bool.false_eq_true, if_false, Nat.zero_add, hd, Dtor.passed]
                  by_cases hji : j ≤ i
                  · have hp1 : Dtor.passed j (dtorNext p (i + 1)) = true := by
                      unfold dtorNext
                      split
                      · simp [Dtor.passed]; omega
                      · rfl
                    simp only [hp1, if_true] at hq
                    omega
                  · simp only [hji, decide_False, Bool.false_eq_true, if_false]
                    split at hq <;> omega

theorem overwrites_never {p q : Pipeline α} {l : Label} (j : Nat)
    (hs : step p l = some q) : overwritesOccupied j p l = false := by
  cases l with
  | worker i =>
      cases workerStep_sound hs with
      | check_first st func hst hk hpc => simp [overwritesOccupied, stageAt, hst, hpc, Loc.atPut]
      | check_relay st func li hst hk hpc =>
          simp [overwritesOccupied, stageAt, hst, hpc, Loc.atPut]
      | call st func hst hk hpc => simp [overwritesOccupied, stageAt, hst, hpc, Loc.atPut]
      | take st func li hst hk hpc hd => simp [overwritesOccupied, stageAt, hst, hpc, Loc.atPut]
      | work st func li d hst hk hpc => simp [overwritesOccupied, stageAt, hst, hpc, Loc.atPut]
      | put st d hst hpc hd =>
          simp only [overwritesOccupied, stageAt, hst, hpc, Loc.atPut, Bool.true_and,
            Bool.and_eq_false_imp, decide_eq_true_eq]
          intro hj
          rw [← hj]
          exact hd
  | consume => rfl
  | teardown b => rfl

theorem countEvents_discards (j : Nat) (ls : List Label) :
    ∀ p : Pipeline α, countEvents (discards j) p ls = countEvents (clearsOccupied j) p ls := by
  induction ls with
  | nil => intro p; rfl
  | cons l ls ih =>
      intro p
      simp only [countEvents]
      cases hs : step p l with
      | none => rfl
      | some q =>
          simp only [discards, overwrites_never j hs, Bool.or_false, ih q]

/-- C8. Bounded leak on forced shutdown. For every pipeline, every execution and every
link j, at most one item is discarded on link j, where an item is discarded by a step
taken while link j is occupied that is either the destructor clearing has_data under the
acquired lock or a put overwriting the payload. A completed put never finds its link
occupied, so every discard is a clear by the destructor, and the destructor clears link j
at most once. -/
theorem C8_bounded_leak (f : Nat → α) (f_list : List (α → α)) (null : α)
    (ls : List Label) (j : Nat) :
    countEvents (discards j) (Pipeline.new f f_list null) ls ≤ 1 ∧
    countEvents (overwritesOccupied j) (Pipeline.new f f_list null) ls = 0 := by
  have h := clears_bound j ls (Pipeline.new f f_list null) (static_new f f_list null)
  have h0 : ∀ (ks : List Label) (p : Pipeline α),
      countEvents (overwritesOccupied j) p ks = 0 := by
    intro ks
    induction ks with
    | nil => intro p; rfl
    | cons l ks ih =>
        intro p
        simp only [countEvents]
        cases hs : step p l with
        | none => rfl
        | some q => simp [overwrites_never j hs, ih q]
  refine ⟨?_, h0 ls _⟩
  rw [countEvents_discards]
  split at h <;> omega

/-- The bound of C8 is attained: in the demo pipeline the destructor can discard the
payload of link 0. -/
theorem discard_occurs : countEvents (discards 0) demo discardSchedule = 1 := by
  decide

theorem run_append (p : Pipeline α) (a b : List Label) :
    run p (a ++ b) = (run p a).bind (fun q => run q b) := by
  induction a generalizing p with
  | nil => rfl
  | cons l a ih =>
      simp only [List.cons_append, run]
      cases step p l with
      | none => rfl
      | some q => exact ih q

/-- C4, the code at the failing input. A pipeline of one producer and one transform is
destroyed right after construction. The execution deadlockSchedule is possible and leads
to a state in which the destructor is at the join of stage 1, the thread of stage 1 is in
the take wait on link 0 with its running flag already cleared, link 0 is empty, the thread
of stage 0 has returned, and no thread has any step left: the join never returns. -/
theorem C4_teardown_deadlock :
    (run tiny deadlockSchedule).map (fun q => q.dtor) = some (Dtor.join 1) ∧
    (run tiny deadlockSchedule).map
        (fun q => q.stages.map (fun st => (st.pc, st.running, st.link_in))) =
      some [(Loc.done, false, none), (Loc.take, false, some 0)] ∧
    (run tiny deadlockSchedule).map (fun q => (q.pipeline_links 0).has_data) = some false ∧
    (∀ l, run tiny (deadlockSchedule ++ [l]) = none) ∧
    (∀ ls, ls ≠ [] → run tiny (deadlockSchedule ++ ls) = none) := by
  have single : ∀ l, run tiny (deadlockSchedule ++ [l]) = none := by
    intro l
    cases l with
    | worker i =>
        match i with
        | 0 => rfl
        | 1 => rfl
        | n + 2 => rfl
    | consume => rfl
    | teardown b => cases b <;> rfl
  refine ⟨rfl, rfl, rfl, single, ?_⟩
  intro ls hne
  cases ls with
  | nil => exact absurd rfl hne
  | cons l rest =>
      have h1 := single l
      rw [run_append] at h1 ⊢
      cases hq : run tiny deadlockSchedule with
      | none => rfl
      | some q =>
          rw [hq] at h1
          simp only [Option.bind, run] at h1 ⊢
          cases hs : step q l with
          | none => rfl
          | some r => simp [hs] at h1

/-! ## Witnesses of the single-step claims -/

/-- C6, witness: in the demo pipeline, once the producer thread has evaluated the producer
its put is enabled, fills link 0 with the produced value 0, and a take on link 0 then
returns 0 and leaves the link unoccupied. -/
theorem C6_witness :
    run demo putSchedule = some putDemo ∧ putDemo.stages[0]? = some putStage ∧
    (workerStep putDemo 0).isSome = true ∧
    ∀ q, workerStep putDemo 0 = some q →
      q.pipeline_links 0 = { has_data := true, buffer := 0 } ∧
      link_take (q.pipeline_links 0) = some (0, { has_data := false, buffer := 0 }) :=
  ⟨rfl, rfl,
    ((C6_put_contract (fun n => n) [fun x => 2 * x, fun x => x + 1] 0 putSchedule putDemo rfl
      0 putStage rfl).2.2 0 rfl).1.trans rfl,
    fun q hq =>
      ⟨(((C6_put_contract (fun n => n) [fun x => 2 * x, fun x => x + 1] 0 putSchedule putDemo
          rfl 0 putStage rfl).2.2 0 rfl).2 q hq).1,
       (((C6_put_contract (fun n => n) [fun x => 2 * x, fun x => x + 1] 0 putSchedule putDemo
          rfl 0 putStage rfl).2.2 0 rfl).2 q hq).2.2.2.1⟩⟩

/-- C9, witness: in the demo pipeline with link 0 occupied by the value 0, the destructor of
stage 0 has cleared the running flag; acquiring the lock it clears has_data of link 0 and
keeps the payload, failing to acquire it changes no link. -/
theorem C9_witness :
    run demo unblockSchedule = some unblockDemo ∧
    unblockDemo.stages[0]? = some unblockStage ∧
    unblockDemo.dtor = Dtor.try_lock 0 ∧
    (unblockDemo.pipeline_links 0).has_data = true ∧
    unblockStage.running = false ∧
    (∃ q, dtorStep unblockDemo true = some q ∧
      (q.pipeline_links 0).has_data = false ∧
      (q.pipeline_links 0).buffer = (unblockDemo.pipeline_links 0).buffer ∧
      (∀ li, unblockStage.link_in = some li →
        q.pipeline_links li = unblockDemo.pipeline_links li) ∧
      (∀ j, j ≠ 0 → q.pipeline_links j = unblockDemo.pipeline_links j) ∧
      q.stages = unblockDemo.stages) ∧
    (∃ q, dtorStep unblockDemo false = some q ∧
      q.pipeline_links = unblockDemo.pipeline_links ∧ q.stages = unblockDemo.stages) :=
  ⟨rfl, rfl, rfl, rfl,
    (C9_forced_unblock (fun n => n) [fun x => 2 * x, fun x => x + 1] 0 unblockSchedule
      unblockDemo rfl 0 unblockStage rfl).2 rfl⟩

end SymmetricBuffer
